import Mathlib

/-
  Verification of the magisk-module-manager repository.

  The development shallowly embeds the two source files:
  - `src/directories.rs`: a path trie (`Node`) over a `BTreeMap<String, Node>`
    with `insert`, `get` and `print`;
  - `src/main.rs`: the archive builder `zip_folder` and the deploy pipeline
    `push_project`, modelled as a trace of external effects driven by an
    environment describing device connectivity and process launch results.
-/

namespace MMM

/-! ## Path segmentation

Rust: `path.split('/').filter(|p| !p.is_empty())`.  We split the character
list on `'/'` and keep only the non-empty segments. -/

/-- Split a character list on `'/'`, returning the non-empty segments.
`acc` holds the characters of the current segment in reverse order. -/
def segsAux : List Char → List Char → List String
  | [], acc => if acc = [] then [] else [String.mk acc.reverse]
  | c :: rest, acc =>
    if c = '/' then
      (if acc = [] then segsAux rest [] else String.mk acc.reverse :: segsAux rest [])
    else segsAux rest (c :: acc)

/-- The non-empty `'/'`-separated segments of a path string, as in
`path.split('/').filter(|p| !p.is_empty())`. -/
def segs (p : String) : List String := segsAux p.data []

example : segs "a/b" = ["a", "b"] := by decide
example : segs "/a//b/" = ["a", "b"] := by decide
example : segs "" = [] := by decide
example : segs "///" = [] := by decide

/-! ## The trie (`src/directories.rs`, `struct Node`)

`children` is a `BTreeMap<String, Node>`: we embed it as an association
list kept sorted by key, which is exactly the map's iteration order. -/

/-- Lexicographic comparison of character lists by code point, the order a
`BTreeMap<String, Node>` keys its entries by (Rust's `Ord` on `String` is
lexicographic byte order, which on UTF-8 agrees with code-point order). -/
def charListLt : List Char → List Char → Bool
  | _, [] => false
  | [], _ :: _ => true
  | a :: as, b :: bs =>
    if a.toNat < b.toNat then true
    else if a.toNat = b.toNat then charListLt as bs
    else false

/-- Lexicographic order on strings, as `Ord` on Rust's `String`. -/
def strLt (a b : String) : Bool := charListLt a.data b.data

/-- One trie node: `pub struct Node { children: BTreeMap<String, Node> }`. -/
inductive Node where
  | mk : List (String × Node) → Node

/-- The children map of a node, as a (sorted) association list. -/
def Node.children : Node → List (String × Node)
  | Node.mk cs => cs

@[simp] theorem Node.children_mk (cs : List (String × Node)) :
    (Node.mk cs).children = cs := rfl

/-- `BTreeMap::get`: the value at key `s`, if present. -/
def findChild : List (String × Node) → String → Option Node
  | [], _ => none
  | (k, c) :: cs, s => if s = k then some c else findChild cs s

/-- `BTreeMap::insert`-style update: place value `v` at key `s`, keeping the
list sorted by key (replacing the value when the key is already present). -/
def childUpdate : List (String × Node) → String → Node → List (String × Node)
  | [], s, v => [(s, v)]
  | (k, c) :: cs, s, v =>
    if strLt s k then (s, v) :: (k, c) :: cs
    else if s = k then (k, v) :: cs
    else (k, c) :: childUpdate cs s v

/-- `Node::insert`, one segment at a time: walk the segments from the root,
creating any missing child (`entry(part).or_insert_with(Node::new)`). -/
def insertSegs : List String → Node → Node
  | [], n => n
  | s :: rest, n =>
    Node.mk (childUpdate n.children s
      (insertSegs rest ((findChild n.children s).getD (Node.mk []))))

/-- `Node::get`, one segment at a time: follow each segment's child link,
returning `none` the first time a segment is absent. -/
def getSegs : List String → Node → Option Node
  | [], n => some n
  | s :: rest, n =>
    match findChild n.children s with
    | none => none
    | some c => getSegs rest c

/-- `pub fn insert(&mut self, path: &str)` from `src/directories.rs`. -/
def Node.insert (n : Node) (path : String) : Node :=
  insertSegs (segs path) n

/-- `pub fn get(&self, path: &str) -> Option<&Node>` from `src/directories.rs`. -/
def Node.get (n : Node) (path : String) : Option Node :=
  getSegs (segs path) n

/-- The empty trie, `Node::new()`. -/
def Node.new : Node := Node.mk []

/-- Build a trie by inserting every path of the list in order, as the
`get_android_tree` / `list_directories` loops do. -/
def insertAll (ps : List String) : Node :=
  ps.foldl Node.insert Node.new

example : ((insertAll ["a/b", "c"]).get "a").isSome = true := by decide
example : ((insertAll ["a/b", "c"]).get "a/b").isSome = true := by decide
example : ((insertAll ["a/b", "c"]).get "x").isSome = false := by decide
example : ((insertAll ["a/b", "c"]).get "a/b/c").isSome = false := by decide

/-! ## Order facts about the key comparison -/

theorem charToNat_inj {a b : Char} (h : a.toNat = b.toNat) : a = b :=
  Char.ext (UInt32.ext h)

theorem charListLt_irrefl : ∀ l : List Char, charListLt l l = false
  | [] => rfl
  | a :: as => by
    simp only [charListLt, Nat.lt_irrefl, if_false, if_pos rfl]
    exact charListLt_irrefl as

theorem charListLt_asymm : ∀ l₁ l₂ : List Char,
    charListLt l₁ l₂ = true → charListLt l₂ l₁ = false
  | _ :: _, [] => by intro h; exact absurd h (by simp [charListLt])
  | [], [] => by intro h; exact absurd h (by simp [charListLt])
  | [], _ :: _ => by intro _; rfl
  | a :: as, b :: bs => by
    intro h
    simp only [charListLt] at h ⊢
    rcases Nat.lt_trichotomy a.toNat b.toNat with hab | hab | hab
    · rw [if_neg (by omega), if_neg (by omega)]
    · rw [if_pos hab, if_neg (by omega)] at h
      rw [if_neg (by omega), if_pos hab.symm]
      exact charListLt_asymm as bs h
    · rw [if_neg (by omega), if_neg (by omega)] at h
      exact absurd h (by simp)

theorem charListLt_total : ∀ l₁ l₂ : List Char,
    charListLt l₁ l₂ = false → l₁ ≠ l₂ → charListLt l₂ l₁ = true
  | [], [] => fun _ hne => absurd rfl hne
  | [], _ :: _ => fun h _ => by simp [charListLt] at h
  | _ :: _, [] => fun _ _ => rfl
  | a :: as, b :: bs => by
    intro h hne
    simp only [charListLt] at h ⊢
    rcases Nat.lt_trichotomy a.toNat b.toNat with hab | hab | hab
    · rw [if_pos hab] at h; exact absurd h (by simp)
    · rw [if_neg (by omega), if_pos hab] at h
      rw [if_neg (by omega), if_pos hab.symm]
      have hone : a = b := charToNat_inj hab
      refine charListLt_total as bs h ?_
      intro hcontra
      exact hne (by rw [hone, hcontra])
    · rw [if_pos hab]

theorem charListLt_trans : ∀ l₁ l₂ l₃ : List Char,
    charListLt l₁ l₂ = true → charListLt l₂ l₃ = true → charListLt l₁ l₃ = true
  | _, _, [] => fun _ h₂ => by simp [charListLt] at h₂
  | _, [], _ :: _ => fun h₁ _ => by simp [charListLt] at h₁
  | [], _ :: _, _ :: _ => fun _ _ => rfl
  | a :: as, b :: bs, c :: cs => by
    intro h₁ h₂
    simp only [charListLt] at h₁ h₂ ⊢
    rcases Nat.lt_trichotomy a.toNat b.toNat with hab | hab | hab
    · rcases Nat.lt_trichotomy b.toNat c.toNat with hbc | hbc | hbc
      · rw [if_pos (by omega)]
      · rw [if_pos (by omega)]
      · rw [if_neg (by omega), if_neg (by omega)] at h₂
        exact absurd h₂ (by simp)
    · rcases Nat.lt_trichotomy b.toNat c.toNat with hbc | hbc | hbc
      · rw [if_pos (by omega)]
      · rw [if_neg (by omega), if_pos (by omega)]
        rw [if_neg (by omega), if_pos hab] at h₁
        rw [if_neg (by omega), if_pos hbc] at h₂
        exact charListLt_trans as bs cs h₁ h₂
      · rw [if_neg (by omega), if_neg (by omega)] at h₂
        exact absurd h₂ (by simp)
    · rw [if_neg (by omega), if_neg (by omega)] at h₁
      exact absurd h₁ (by simp)

theorem strEq_of_data : ∀ {a b : String}, a.data = b.data → a = b
  | ⟨_⟩, ⟨_⟩, h => congrArg String.mk h

theorem strLt_irrefl (a : String) : strLt a a = false :=
  charListLt_irrefl a.data

theorem strLt_asymm {a b : String} (h : strLt a b = true) : strLt b a = false :=
  charListLt_asymm a.data b.data h

theorem strLt_total {a b : String} (h : strLt a b = false) (hne : a ≠ b) :
    strLt b a = true :=
  charListLt_total a.data b.data h (fun hd => hne (strEq_of_data hd))

theorem strLt_trans {a b c : String} (h₁ : strLt a b = true) (h₂ : strLt b c = true) :
    strLt a c = true :=
  charListLt_trans a.data b.data c.data h₁ h₂

theorem strLt_ne {a b : String} (h : strLt a b = true) : a ≠ b := by
  intro he
  rw [he, strLt_irrefl] at h
  exact absurd h (by simp)

/-! ## Children-map lemmas -/

theorem findChild_childUpdate_self : ∀ (cs : List (String × Node)) (s : String) (v : Node),
    findChild (childUpdate cs s v) s = some v
  | [], s, v => by simp [childUpdate, findChild]
  | (k, c) :: cs, s, v => by
    by_cases hlt : strLt s k = true
    · simp [childUpdate, hlt, findChild]
    · by_cases heq : s = k
      · simp [childUpdate, hlt, heq, findChild, strLt_irrefl]
      · simp only [childUpdate, hlt, if_false, heq, Bool.false_eq_true, findChild, if_neg heq]
        exact findChild_childUpdate_self cs s v

theorem findChild_childUpdate_ne : ∀ (cs : List (String × Node)) (s t : String) (v : Node),
    s ≠ t → findChild (childUpdate cs t v) s = findChild cs s
  | [], s, t, v, hne => by simp [childUpdate, findChild, hne]
  | (k, c) :: cs, s, t, v, hne => by
    by_cases hlt : strLt t k = true
    · simp only [childUpdate, hlt, if_pos rfl, findChild, if_neg hne]
    · by_cases heq : t = k
      · subst heq
        simp only [childUpdate, hlt, Bool.false_eq_true, if_false, if_pos rfl, findChild,
          if_neg hne]
      · simp only [childUpdate, hlt, Bool.false_eq_true, if_false, if_neg heq, findChild]
        by_cases hsk : s = k
        · simp [hsk]
        · simp only [if_neg hsk]
          exact findChild_childUpdate_ne cs s t v hne

theorem childUpdate_childUpdate_self :
    ∀ (cs : List (String × Node)) (s : String) (v w : Node),
    childUpdate (childUpdate cs s v) s w = childUpdate cs s w
  | [], s, v, w => by simp [childUpdate, strLt_irrefl]
  | (k, c) :: cs, s, v, w => by
    by_cases hlt : strLt s k = true
    · simp [childUpdate, hlt, strLt_irrefl]
    · by_cases heq : s = k
      · subst heq
        simp [childUpdate, hlt, strLt_irrefl]
      · simp only [childUpdate, hlt, Bool.false_eq_true, if_false, if_neg heq]
        rw [childUpdate_childUpdate_self cs s v w]

theorem childUpdate_comm :
    ∀ (cs : List (String × Node)) (s t : String) (v w : Node), s ≠ t →
    childUpdate (childUpdate cs s v) t w = childUpdate (childUpdate cs t w) s v
  | [], s, t, v, w, hne => by
    by_cases hst : strLt s t = true
    · have hts : strLt t s = false := strLt_asymm hst
      simp [childUpdate, hst, hts, hne, Ne.symm hne]
    · have hts : strLt t s = true := strLt_total (by simpa using hst) hne
      simp [childUpdate, hst, hts, hne, Ne.symm hne]
  | (k, c) :: cs, s, t, v, w, hne => by
    by_cases hsk : strLt s k = true
    · by_cases htk : strLt t k = true
      · -- both new keys sort before `k`; order between them decides the head
        by_cases hst : strLt s t = true
        · have hts : strLt t s = false := strLt_asymm hst
          simp [childUpdate, hsk, htk, hst, hts, hne, Ne.symm hne]
        · have hts : strLt t s = true := strLt_total (by simpa using hst) hne
          simp [childUpdate, hsk, htk, hst, hts, hne, Ne.symm hne]
      · by_cases htkeq : t = k
        · -- `t` replaces the head, `s` sorts before it
          subst htkeq
          have hts : strLt t s = false := strLt_asymm hsk
          simp [childUpdate, hsk, hts, strLt_irrefl, hne, Ne.symm hne]
        · -- `k < t`, so `s < t`: `s` goes in front, `t` deeper in the tail
          have hkt : strLt k t = true := strLt_total (by simpa using htk) htkeq
          have hst : strLt s t = true := strLt_trans hsk hkt
          have hts : strLt t s = false := strLt_asymm hst
          simp [childUpdate, hsk, htk, htkeq, hst, hts, hne, Ne.symm hne]
    · by_cases hskeq : s = k
      · subst hskeq
        by_cases htk : strLt t s = true
        · simp [childUpdate, hsk, htk, strLt_asymm htk, strLt_irrefl, hne, Ne.symm hne]
        · have htkeq : t ≠ s := Ne.symm hne
          simp [childUpdate, hsk, htk, htkeq, strLt_irrefl]
      · by_cases htk : strLt t k = true
        · have hkt : strLt k s = true := strLt_total (by simpa using hsk) hskeq
          have hts : strLt t s = true := strLt_trans htk hkt
          have hst : strLt s t = false := strLt_asymm hts
          simp [childUpdate, hsk, hskeq, htk, hst, hts, hne, Ne.symm hne]
        · by_cases htkeq : t = k
          · subst htkeq
            simp [childUpdate, hsk, hskeq, strLt_irrefl, hne, Ne.symm hne]
          · simp only [childUpdate, hsk, Bool.false_eq_true, if_false, if_neg hskeq, htk,
              if_neg htkeq]
            rw [childUpdate_comm cs s t v w hne]

/-! ## Insertion lemmas -/

theorem insertSegs_comm : ∀ (ss ts : List String) (n : Node),
    insertSegs ss (insertSegs ts n) = insertSegs ts (insertSegs ss n)
  | [], _, _ => rfl
  | _ :: _, [], _ => rfl
  | s :: ss, t :: ts, n => by
    by_cases hst : s = t
    · subst hst
      simp only [insertSegs, Node.children_mk, findChild_childUpdate_self, Option.getD_some,
        childUpdate_childUpdate_self]
      rw [insertSegs_comm ss ts ((findChild n.children s).getD (Node.mk []))]
    · simp only [insertSegs, Node.children_mk,
        findChild_childUpdate_ne _ s t _ hst, findChild_childUpdate_ne _ t s _ (Ne.symm hst)]
      rw [childUpdate_comm _ t s _ _ (Ne.symm hst)]
termination_by ss ts => ss.length + ts.length
decreasing_by simp; omega

theorem insertSegs_idem : ∀ (ss : List String) (n : Node),
    insertSegs ss (insertSegs ss n) = insertSegs ss n
  | [], _ => rfl
  | s :: ss, n => by
    simp only [insertSegs, Node.children_mk, findChild_childUpdate_self, Option.getD_some,
      childUpdate_childUpdate_self]
    rw [insertSegs_idem ss ((findChild n.children s).getD (Node.mk []))]

/-- `qs` is an initial segment of `ss` (every node on the way to `qs` is
created when `ss` is inserted). -/
def isUnder : List String → List String → Bool
  | [], _ => true
  | _ :: _, [] => false
  | q :: qs, s :: ss => if q = s then isUnder qs ss else false

theorem isUnder_refl : ∀ ss : List String, isUnder ss ss = true
  | [] => rfl
  | _ :: ss => by simp [isUnder, isUnder_refl ss]

theorem getSegs_new : ∀ qs : List String, (getSegs qs (Node.mk [])).isSome = qs.isEmpty
  | [] => rfl
  | _ :: _ => by simp [getSegs, findChild, Node.children, List.isEmpty]

theorem getSegs_insertSegs : ∀ (qs ss : List String) (n : Node),
    (getSegs qs (insertSegs ss n)).isSome =
      (isUnder qs ss || (getSegs qs n).isSome)
  | [], ss, n => by simp [getSegs, isUnder]
  | q :: qs, [], n => by simp [insertSegs, isUnder]
  | q :: qs, s :: ss, n => by
    by_cases hqs : q = s
    · subst hqs
      simp only [insertSegs, getSegs, Node.children_mk, findChild_childUpdate_self]
      rw [getSegs_insertSegs qs ss ((findChild n.children q).getD (Node.mk []))]
      cases hfc : findChild n.children q with
      | none =>
        simp only [hfc, Option.getD_none, getSegs_new, isUnder, if_pos rfl]
        cases qs with
        | nil => simp [isUnder]
        | cons x xs => simp [isUnder, List.isEmpty]
      | some c => simp [hfc, isUnder]
    · simp only [insertSegs, getSegs, Node.children_mk,
        findChild_childUpdate_ne _ q s _ hqs, isUnder, if_neg hqs, Bool.false_or]

theorem getSegs_foldl : ∀ (ps : List String) (n : Node) (qs : List String),
    (getSegs qs (ps.foldl Node.insert n)).isSome =
      (ps.any (fun p => isUnder qs (segs p)) || (getSegs qs n).isSome)
  | [], n, qs => by simp
  | p :: ps, n, qs => by
    simp only [List.foldl_cons, List.any_cons]
    rw [getSegs_foldl ps (n.insert p) qs]
    unfold Node.insert
    rw [getSegs_insertSegs qs (segs p) n]
    cases isUnder qs (segs p) <;> cases (getSegs qs n).isSome <;>
      cases ps.any (fun p => isUnder qs (segs p)) <;> rfl

theorem insert_insert_self (t : Node) (p : String) :
    (t.insert p).insert p = t.insert p :=
  insertSegs_idem (segs p) t

theorem foldl_insert_perm {ps qs : List String} (h : ps.Perm qs) :
    ∀ n : Node, ps.foldl Node.insert n = qs.foldl Node.insert n := by
  induction h with
  | nil => intro n; rfl
  | cons x _ ih => intro n; simp only [List.foldl_cons]; exact ih _
  | swap x y l =>
    intro n
    simp only [List.foldl_cons]
    have hcomm : (n.insert y).insert x = (n.insert x).insert y :=
      insertSegs_comm (segs x) (segs y) n
    rw [hcomm]
  | trans _ _ ih₁ ih₂ => intro n; rw [ih₁, ih₂]

/-- C6: for any sequence of insertions into the trie, `get` on an inserted
path returns a node; `get` on a path with a non-empty segment sequence that
is not an initial segment of any inserted path's segments returns `none`;
and `get` on a path whose segment sequence is empty returns the root. -/
theorem trie_lookup_correct (ps : List String) (p q r : String) :
    (p ∈ ps → ((insertAll ps).get p).isSome = true)
  ∧ ((segs q ≠ [] ∧ ∀ s ∈ ps, isUnder (segs q) (segs s) = false) →
      (insertAll ps).get q = none)
  ∧ (segs r = [] → (insertAll ps).get r = some (insertAll ps)) := by
  refine ⟨?_, ?_, ?_⟩
  · intro hp
    show (getSegs (segs p) (ps.foldl Node.insert Node.new)).isSome = true
    rw [getSegs_foldl]
    have : ps.any (fun s => isUnder (segs p) (segs s)) = true :=
      List.any_eq_true.mpr ⟨p, hp, isUnder_refl (segs p)⟩
    rw [this, Bool.true_or]
  · rintro ⟨hq, hall⟩
    have hsome : (getSegs (segs q) (ps.foldl Node.insert Node.new)).isSome = false := by
      rw [getSegs_foldl]
      have h₁ : ps.any (fun s => isUnder (segs q) (segs s)) = false := by
        rw [List.any_eq_false]
        intro s hs
        simp [hall s hs]
      have h₂ : (getSegs (segs q) Node.new).isSome = false := by
        rw [show (Node.new : Node) = Node.mk [] from rfl, getSegs_new]
        cases hsq : segs q with
        | nil => exact absurd hsq hq
        | cons x xs => rfl
      rw [h₁, h₂, Bool.or_false]
    cases hval : (insertAll ps).get q with
    | none => rfl
    | some c =>
      exfalso
      have hT : (getSegs (segs q) (ps.foldl Node.insert Node.new)).isSome = true := by
        show ((insertAll ps).get q).isSome = true
        rw [hval]
        rfl
      rw [hT] at hsome
      exact absurd hsome (by simp)
  · intro hr
    show getSegs (segs r) (insertAll ps) = some (insertAll ps)
    rw [hr]
    rfl

theorem trie_lookup_correct_witness :
    ((insertAll ["/a/b", "c"]).get "/a/b").isSome = true
  ∧ (insertAll ["/a/b", "c"]).get "x/y" = none
  ∧ (insertAll ["/a/b", "c"]).get "///" = some (insertAll ["/a/b", "c"]) :=
  ⟨(trie_lookup_correct ["/a/b", "c"] "/a/b" "x/y" "///").1 (by decide),
   (trie_lookup_correct ["/a/b", "c"] "/a/b" "x/y" "///").2.1 ⟨by decide, by decide⟩,
   (trie_lookup_correct ["/a/b", "c"] "/a/b" "x/y" "///").2.2 (by decide)⟩

/-- C7: inserting two permutations of the same list of paths into the empty
trie yields identical trees; the result is determined by the set of paths,
not their order. -/
theorem trie_insert_order_independent (ps qs : List String) (h : ps.Perm qs) :
    insertAll ps = insertAll qs :=
  foldl_insert_perm h Node.new

theorem trie_insert_order_independent_witness :
    insertAll ["a/b", "c"] = insertAll ["c", "a/b"] :=
  trie_insert_order_independent ["a/b", "c"] ["c", "a/b"]
    (List.Perm.swap "c" "a/b" [])

/-- C8: inserting the same path `k ≥ 1` times into any trie state produces
the same tree as inserting it exactly once; re-inserting a present path is
a structural no-op. -/
theorem trie_insert_idempotent (t : Node) (p : String) (k : Nat) (h : 1 ≤ k) :
    (fun u : Node => u.insert p)^[k] t = t.insert p := by
  induction k with
  | zero => omega
  | succ k ih =>
    cases Nat.eq_zero_or_pos k with
    | inl hz => subst hz; simp
    | inr hpos =>
      rw [Function.iterate_succ_apply', ih hpos]
      exact insert_insert_self t p

theorem trie_insert_idempotent_witness :
    (fun u : Node => u.insert "a/b")^[3] Node.new = Node.new.insert "a/b" :=
  trie_insert_idempotent Node.new "a/b" 3 (by decide)

/-! ## Rendering (`Node::print`)

`print` writes, for each child in `BTreeMap` iteration order (sorted by
key), one line of `indent` spaces followed by the child's name, then the
child's subtree with `indent + 2`.  We model the printed output as the
list of emitted lines. -/

mutual

/-- The lines printed by `node.print(indent)`. -/
def printNode : Node → Nat → List String
  | Node.mk cs, i => printChildren cs i

/-- The lines printed for a children list, in list (= key) order. -/
def printChildren : List (String × Node) → Nat → List String
  | [], _ => []
  | (k, c) :: cs, i =>
    (String.mk (List.replicate i ' ') ++ k) :: (printNode c (i + 2) ++ printChildren cs i)

end

/-- `pub fn print(&self, indent: usize)` from `src/directories.rs`, as the
list of lines it prints. -/
def Node.print (n : Node) (indent : Nat) : List String := printNode n indent

mutual

/-- Every children list in the tree is strictly sorted by key, the
`BTreeMap` invariant. -/
def nodeSorted : Node → Prop
  | Node.mk cs => List.Pairwise (fun a b => strLt a.1 b.1 = true) cs ∧ childrenSorted cs

/-- All nodes of a children list are recursively sorted. -/
def childrenSorted : List (String × Node) → Prop
  | [] => True
  | (_, c) :: cs => nodeSorted c ∧ childrenSorted cs

end

theorem childUpdate_mem : ∀ (cs : List (String × Node)) (s : String) (v : Node)
    (y : String × Node), y ∈ childUpdate cs s v → y = (s, v) ∨ y ∈ cs
  | [], s, v, y => by
    intro hy
    simp only [childUpdate, List.mem_singleton] at hy
    exact Or.inl hy
  | (k, c) :: cs, s, v, y => by
    intro hy
    simp only [childUpdate] at hy
    by_cases hlt : strLt s k = true
    · rw [if_pos hlt] at hy
      rcases List.mem_cons.mp hy with h | h
      · exact Or.inl h
      · exact Or.inr h
    · rw [if_neg hlt] at hy
      by_cases heq : s = k
      · rw [if_pos heq] at hy
        subst heq
        rcases List.mem_cons.mp hy with h | h
        · exact Or.inl h
        · exact Or.inr (List.mem_cons_of_mem _ h)
      · rw [if_neg heq] at hy
        rcases List.mem_cons.mp hy with h | h
        · exact Or.inr (by rw [h]; exact List.mem_cons_self _ _)
        · rcases childUpdate_mem cs s v y h with h' | h'
          · exact Or.inl h'
          · exact Or.inr (List.mem_cons_of_mem _ h')

theorem pairwise_childUpdate :
    ∀ (cs : List (String × Node)) (s : String) (v : Node),
    List.Pairwise (fun a b : String × Node => strLt a.1 b.1 = true) cs →
    List.Pairwise (fun a b : String × Node => strLt a.1 b.1 = true) (childUpdate cs s v)
  | [], s, v, _ => by simp [childUpdate]
  | (k, c) :: cs, s, v, h => by
    rcases List.pairwise_cons.mp h with ⟨hk, hcs⟩
    simp only [childUpdate]
    by_cases hlt : strLt s k = true
    · rw [if_pos hlt]
      refine List.pairwise_cons.mpr ⟨?_, h⟩
      intro y hy
      rcases List.mem_cons.mp hy with h' | h'
      · rw [h']; exact hlt
      · exact strLt_trans hlt (hk y h')
    · rw [if_neg hlt]
      by_cases heq : s = k
      · rw [if_pos heq]
        subst heq
        exact List.pairwise_cons.mpr ⟨hk, hcs⟩
      · rw [if_neg heq]
        refine List.pairwise_cons.mpr ⟨?_, pairwise_childUpdate cs s v hcs⟩
        intro y hy
        rcases childUpdate_mem cs s v y hy with h' | h'
        · rw [h']
          show strLt k s = true
          exact strLt_total (by simpa using hlt) heq
        · exact hk y h'

theorem findChild_mem : ∀ (cs : List (String × Node)) (s : String) (c : Node),
    findChild cs s = some c → (s, c) ∈ cs
  | [], s, c => by intro h; simp [findChild] at h
  | (k, d) :: cs, s, c => by
    intro h
    simp only [findChild] at h
    by_cases heq : s = k
    · rw [if_pos heq] at h
      injection h with h
      subst heq
      subst h
      exact List.mem_cons_self _ _
    · rw [if_neg heq] at h
      exact List.mem_cons_of_mem _ (findChild_mem cs s c h)

theorem childrenSorted_iff : ∀ cs : List (String × Node),
    childrenSorted cs ↔ ∀ y ∈ cs, nodeSorted y.2
  | [] => by simp [childrenSorted]
  | (k, c) :: cs => by
    rw [childrenSorted, childrenSorted_iff cs]
    constructor
    · rintro ⟨h1, h2⟩ y hy
      rcases List.mem_cons.mp hy with h | h
      · rw [h]; exact h1
      · exact h2 y h
    · intro hall
      exact ⟨hall (k, c) (by simp), fun y hy => hall y (List.mem_cons_of_mem _ hy)⟩

theorem nodeSorted_new : nodeSorted (Node.mk []) := by
  rw [nodeSorted]
  exact ⟨List.Pairwise.nil, trivial⟩

theorem nodeSorted_insertSegs : ∀ (ss : List String) (n : Node),
    nodeSorted n → nodeSorted (insertSegs ss n)
  | [], n, h => h
  | s :: ss, n, h => by
    cases n with
    | mk cs =>
      rcases (by rw [nodeSorted] at h; exact h :
        List.Pairwise (fun a b : String × Node => strLt a.1 b.1 = true) cs ∧
          childrenSorted cs) with ⟨hpw, hch⟩
      show nodeSorted (Node.mk (childUpdate cs s
        (insertSegs ss ((findChild cs s).getD (Node.mk [])))))
      rw [nodeSorted]
      constructor
      · exact pairwise_childUpdate cs s _ hpw
      · rw [childrenSorted_iff]
        intro y hy
        rcases childUpdate_mem cs s _ y hy with h' | h'
        · rw [h']
          refine nodeSorted_insertSegs ss _ ?_
          cases hfc : findChild cs s with
          | none => exact nodeSorted_new
          | some c => exact (childrenSorted_iff cs).mp hch (s, c) (findChild_mem cs s c hfc)
        · exact (childrenSorted_iff cs).mp hch y h'

theorem nodeSorted_foldl : ∀ (ps : List String) (n : Node),
    nodeSorted n → nodeSorted (ps.foldl Node.insert n)
  | [], n, h => h
  | p :: ps, n, h => by
    simp only [List.foldl_cons]
    exact nodeSorted_foldl ps (n.insert p) (nodeSorted_insertSegs (segs p) n h)

theorem printChildren_join : ∀ (cs : List (String × Node)) (i : Nat),
    printChildren cs i =
      (cs.map fun kc => (String.mk (List.replicate i ' ') ++ kc.1) ::
        printNode kc.2 (i + 2)).flatten
  | [], i => by simp [printChildren]
  | (k, c) :: cs, i => by
    rw [printChildren, List.map_cons, List.flatten]
    rw [printChildren_join cs i]
    rfl

/-- C9: printing is deterministic and ordered.  The output of `print` on a
trie built from a list of paths does not depend on insertion order; every
children list of such a trie is strictly sorted by key, so children are
emitted in lexicographic order of name; and for every node the output is
one line of `indent` spaces followed by the child name per child, each
followed immediately (pre-order) by the child's subtree printed with
indent increased by 2. -/
theorem trie_print_deterministic_ordered (ps qs : List String) (i : Nat)
    (h : ps.Perm qs) :
    (insertAll ps).print i = (insertAll qs).print i
  ∧ nodeSorted (insertAll ps)
  ∧ ∀ t : Node, t.print i =
      (t.children.map fun kc => (String.mk (List.replicate i ' ') ++ kc.1) ::
        printNode kc.2 (i + 2)).flatten := by
  refine ⟨?_, ?_, ?_⟩
  · show printNode (insertAll ps) i = printNode (insertAll qs) i
    rw [show insertAll ps = ps.foldl Node.insert Node.new from rfl,
      foldl_insert_perm h Node.new]
    rfl
  · exact nodeSorted_foldl ps Node.new nodeSorted_new
  · intro t
    cases t with
    | mk cs =>
      show printNode (Node.mk cs) i = _
      rw [printNode, printChildren_join]
      rfl

theorem trie_print_deterministic_ordered_witness :
    (insertAll ["/b/x", "/a/y"]).print 0 = (insertAll ["/a/y", "/b/x"]).print 0
  ∧ nodeSorted (insertAll ["/b/x", "/a/y"])
  ∧ ∀ t : Node, t.print 0 =
      (t.children.map fun kc => (String.mk (List.replicate 0 ' ') ++ kc.1) ::
        printNode kc.2 (0 + 2)).flatten :=
  trie_print_deterministic_ordered ["/b/x", "/a/y"] ["/a/y", "/b/x"] 0
    (List.Perm.swap "/a/y" "/b/x" [])

/-! ## The deploy pipeline (`src/main.rs`, `push_project`)

Each external operation of `push_project` is recorded as an `Effect` in
order of issue.  Every `Command` in the source ends in `.status().unwrap()`
(or the archive build in `expect`/`unwrap`): a failure to launch the
process panics and aborts the run, while the exit code of a launched
process is returned and then discarded, never inspected. -/

/-- One externally visible side effect of the pipeline: local archive
creation (the `File::create` inside `zip_folder`), `adb push`, a privileged
remote command (`adb shell su -c <cmd>`), `adb reboot`, or removal of a
local file. -/
inductive Effect where
  | createArchive : String → Effect
  | adbPush : String → String → Effect
  | remoteCmd : String → Effect
  | adbReboot : Effect
  | removeFile : String → Effect
deriving DecidableEq

/-- How a run of `push_project` ends: normally, or in a panic from an
`unwrap`/`expect`. -/
inductive Outcome where
  | normal : Outcome
  | panicked : Outcome
deriving DecidableEq

/-- The arguments of one `Build` invocation: the module name, the project
base path, and the four boolean flags. -/
structure Job where
  name : String
  projectPath : String
  noClear : Bool
  noPush : Bool
  noReboot : Bool
  ignoreAdb : Bool

/-- The external world of one run: whether `check_if_devices_are_connected()`
reports a device, whether the local archive build succeeds, and for each
spawned command whether its process launches (`status()` returns `Ok`) and
with which exit code.  `fs::remove_file`'s result is `removeOk`. -/
structure Env where
  connected : Bool
  zipOk : Bool
  pushLaunch : Bool
  pushExit : Nat
  mkdirLaunch : Bool
  mkdirExit : Nat
  unzipLaunch : Bool
  unzipExit : Nat
  touchLaunch : Bool
  touchExit : Nat
  rebootLaunch : Bool
  rebootExit : Nat
  removeOk : Bool

/-- `fn push_project(name, project_path, no_clear, no_push, no_reboot,
ignore_adb)` from `src/main.rs`, as the list of effects it issues in order,
paired with how the run ends.  Command strings are built exactly as the
`format!` calls in the source build them. -/
def pushProject (j : Job) (e : Env) : List Effect × Outcome :=
  if !e.connected && !j.ignoreAdb then ([], Outcome.normal)
  else
    let zipName := j.name ++ ".zip"
    let t₀ := [Effect.createArchive (j.projectPath ++ "/" ++ zipName)]
    if !e.zipOk then (t₀, Outcome.panicked)
    else if j.noPush then (t₀, Outcome.normal)
    else
      let t₁ := t₀ ++ [Effect.adbPush zipName ("/sdcard/" ++ zipName)]
      if !e.pushLaunch then (t₁, Outcome.panicked)
      else
        let t₂ := t₁ ++ [Effect.remoteCmd ("mkdir -p /data/adb/modules_update/" ++ j.name)]
        if !e.mkdirLaunch then (t₂, Outcome.panicked)
        else
          let t₃ := t₂ ++ [Effect.remoteCmd
            ("unzip -o /sdcard/" ++ zipName ++ " -d /data/adb/modules_update/" ++ j.name)]
          if !e.unzipLaunch then (t₃, Outcome.panicked)
          else
            let t₄ := t₃ ++ [Effect.remoteCmd
              ("touch /data/adb/modules_update/" ++ j.name ++ "/update")]
            if !e.touchLaunch then (t₄, Outcome.panicked)
            else if j.noReboot then (t₄, Outcome.normal)
            else
              let t₅ := t₄ ++ [Effect.adbReboot]
              if !e.rebootLaunch then (t₅, Outcome.panicked)
              else if !j.noClear then
                (t₅ ++ [Effect.removeFile (j.projectPath ++ "\\" ++ j.name ++ ".zip")],
                  Outcome.normal)
              else (t₅, Outcome.normal)

/-- C2: with no connected device and `ignore_adb` unset, `push_project`
returns before any side effect: the effect trace is empty and the run ends
normally — no archive, no transfer, no remote command. -/
theorem no_device_short_circuit (j : Job) (e : Env)
    (hc : e.connected = false) (hi : j.ignoreAdb = false) :
    pushProject j e = ([], Outcome.normal) := by
  simp [pushProject, hc, hi]

theorem no_device_short_circuit_witness :
    pushProject ⟨"mod", "proj", false, false, false, false⟩
      ⟨false, true, true, 0, true, 0, true, 0, true, 0, true, 0, true⟩
      = ([], Outcome.normal) :=
  no_device_short_circuit _ _ rfl rfl

/-- C4: with `no_push` set and a device connected (or `ignore_adb` set),
and the archive build succeeding, the pipeline creates the archive at
`<project>/<name>.zip` and then ends normally with no further effect: no
push, no remote command, no reboot, no local cleanup. -/
theorem skip_transfer_archive_only (j : Job) (e : Env)
    (hp : j.noPush = true) (hd : (e.connected || j.ignoreAdb) = true)
    (hz : e.zipOk = true) :
    pushProject j e =
      ([Effect.createArchive (j.projectPath ++ "/" ++ (j.name ++ ".zip"))],
        Outcome.normal) := by
  cases hcon : e.connected <;> cases hia : j.ignoreAdb <;>
    simp_all [pushProject]

theorem skip_transfer_archive_only_witness :
    pushProject ⟨"mod", "proj", false, true, false, false⟩
      ⟨true, true, true, 0, true, 0, true, 0, true, 0, true, 0, true⟩
      = ([Effect.createArchive ("proj" ++ "/" ++ ("mod" ++ ".zip"))], Outcome.normal) :=
  skip_transfer_archive_only _ _ rfl rfl rfl

/-- C1 counterexample: a run in which every process launches, the unzip
command exits with status 1, and yet the pipeline does not abort: the
marker-creation `touch` command is still issued and the run ends normally. -/
theorem pipeline_touch_despite_unzip_failure :
    (⟨true, true, true, 0, true, 0, true, 1, true, 0, true, 0, true⟩ : Env).unzipExit ≠ 0
  ∧ Effect.remoteCmd "touch /data/adb/modules_update/mod/update" ∈
      (pushProject ⟨"mod", "proj", true, false, true, false⟩
        ⟨true, true, true, 0, true, 0, true, 1, true, 0, true, 0, true⟩).1
  ∧ (pushProject ⟨"mod", "proj", true, false, true, false⟩
      ⟨true, true, true, 0, true, 0, true, 1, true, 0, true, 0, true⟩).2
      = Outcome.normal := by
  refine ⟨by decide, ?_, by decide⟩
  decide

/-- C1 (amended): `push_project` never inspects exit statuses.  Its whole
behavior (trace and outcome) is invariant under changes to the exit codes,
and in every run that reaches the unzip step with the `push`, `mkdir` and
`unzip` processes launching, the marker-creation `touch` command is issued
whatever the unzip exit status; only a process-launch failure (a panic from
`unwrap`) aborts the remaining steps. -/
theorem pipeline_ignores_exit_codes (j : Job) (e e' : Env)
    (hc : e.connected = e'.connected) (hz : e.zipOk = e'.zipOk)
    (h₁ : e.pushLaunch = e'.pushLaunch) (h₂ : e.mkdirLaunch = e'.mkdirLaunch)
    (h₃ : e.unzipLaunch = e'.unzipLaunch) (h₄ : e.touchLaunch = e'.touchLaunch)
    (h₅ : e.rebootLaunch = e'.rebootLaunch) (h₆ : e.removeOk = e'.removeOk) :
    pushProject j e = pushProject j e'
  ∧ ((e.connected || j.ignoreAdb) = true → e.zipOk = true → j.noPush = false →
      e.pushLaunch = true → e.mkdirLaunch = true → e.unzipLaunch = true →
      Effect.remoteCmd ("touch /data/adb/modules_update/" ++ j.name ++ "/update")
        ∈ (pushProject j e).1) := by
  constructor
  · cases e
    cases e'
    simp only at hc hz h₁ h₂ h₃ h₄ h₅ h₆
    subst hc
    subst hz
    subst h₁
    subst h₂
    subst h₃
    subst h₄
    subst h₅
    subst h₆
    rfl
  · intro hd hzip hnp hl₁ hl₂ hl₃
    cases hcon : e.connected <;> cases hia : j.ignoreAdb <;>
      cases htl : e.touchLaunch <;>
      simp_all [pushProject] <;>
      split_ifs <;> simp

theorem pipeline_ignores_exit_codes_witness :
    pushProject ⟨"mod", "proj", false, false, false, false⟩
        ⟨true, true, true, 0, true, 0, true, 0, true, 0, true, 0, true⟩
      = pushProject ⟨"mod", "proj", false, false, false, false⟩
        ⟨true, true, true, 7, true, 9, true, 1, true, 3, true, 5, true⟩
  ∧ ((true || false) = true → true = true → false = false →
      true = true → true = true → true = true →
      Effect.remoteCmd ("touch /data/adb/modules_update/" ++ "mod" ++ "/update")
        ∈ (pushProject ⟨"mod", "proj", false, false, false, false⟩
            ⟨true, true, true, 0, true, 0, true, 0, true, 0, true, 0, true⟩).1) :=
  pipeline_ignores_exit_codes ⟨"mod", "proj", false, false, false, false⟩
    ⟨true, true, true, 0, true, 0, true, 0, true, 0, true, 0, true⟩
    ⟨true, true, true, 7, true, 9, true, 1, true, 3, true, 5, true⟩
    rfl rfl rfl rfl rfl rfl rfl rfl

/-- C3: the archive step creates the file at `<project>/<name>.zip`, but the
local path handed to `adb push` is the bare `<name>.zip`, resolved against
the working directory — not the path the archive was written to.  Evaluated
at name `mod`, project path `proj`, with every process launching. -/
theorem push_local_path_mismatch :
    (pushProject ⟨"mod", "proj", true, false, true, false⟩
        ⟨true, true, true, 0, true, 0, true, 0, true, 0, true, 0, true⟩).1
      = [Effect.createArchive "proj/mod.zip",
         Effect.adbPush "mod.zip" "/sdcard/mod.zip",
         Effect.remoteCmd "mkdir -p /data/adb/modules_update/mod",
         Effect.remoteCmd "unzip -o /sdcard/mod.zip -d /data/adb/modules_update/mod",
         Effect.remoteCmd "touch /data/adb/modules_update/mod/update"]
  ∧ ("proj/mod.zip" : String) ≠ "mod.zip" := by
  refine ⟨?_, by decide⟩
  decide

/-- C5: in a full run (restart issued, `no_clear` unset) the cleanup step
removes `<project>\<name>.zip` — a backslash-joined path — while the
archive was created at `<project>/<name>.zip`; on a host with `/`
separators the removed path is not the archive's path.  The removal result
is ignored: the outcome is `normal` whether removal succeeds or fails. -/
theorem cleanup_backslash_mismatch :
    (pushProject ⟨"mod", "proj", false, false, false, false⟩
        ⟨true, true, true, 0, true, 0, true, 0, true, 0, true, 0, true⟩).1
      = [Effect.createArchive "proj/mod.zip",
         Effect.adbPush "mod.zip" "/sdcard/mod.zip",
         Effect.remoteCmd "mkdir -p /data/adb/modules_update/mod",
         Effect.remoteCmd "unzip -o /sdcard/mod.zip -d /data/adb/modules_update/mod",
         Effect.remoteCmd "touch /data/adb/modules_update/mod/update",
         Effect.adbReboot,
         Effect.removeFile "proj\\mod.zip"]
  ∧ ("proj\\mod.zip" : String) ≠ "proj/mod.zip"
  ∧ pushProject ⟨"mod", "proj", false, false, false, false⟩
      ⟨true, true, true, 0, true, 0, true, 0, true, 0, true, 0, false⟩
    = pushProject ⟨"mod", "proj", false, false, false, false⟩
      ⟨true, true, true, 0, true, 0, true, 0, true, 0, true, 0, true⟩
  ∧ (pushProject ⟨"mod", "proj", false, false, true, false⟩
      ⟨true, true, true, 0, true, 0, true, 0, true, 0, true, 0, true⟩).1.all
      (fun eff => match eff with | Effect.removeFile _ => false | _ => true) = true := by
  refine ⟨?_, by decide, ?_, ?_⟩ <;> decide

/-! ## The archive builder (`src/main.rs`, `zip_folder`) -/

/-- A local file-system tree: a named file with its byte content, or a
named directory with its entries.  `WalkDir::new(src_dir)` yields the root
itself first, then descends depth-first. -/
inductive FsTree where
  | file : String → List Nat → FsTree
  | dir : String → List FsTree → FsTree

/-- The name of a tree entry. -/
def FsTree.name : FsTree → String
  | FsTree.file n _ => n
  | FsTree.dir n _ => n

/-- One entry written into the archive: a directory entry (name suffixed
with `/`) or a stored file entry with its bytes, each with Unix permission
bits. -/
inductive ZipEntry where
  | dirEntry : String → Nat → ZipEntry
  | fileEntry : String → Nat → List Nat → ZipEntry
deriving DecidableEq

/-- The path of a child named `name` below relative path `rel`
(`strip_prefix` of the root followed by separator normalization to `/`);
the root itself has the empty relative path. -/
def relJoin (rel name : String) : String :=
  if rel = "" then name else rel ++ "/" ++ name

mutual

/-- The entries `zip_folder` writes for the tree `t` whose path relative
to the walk root is `rel`: for a directory, `add_directory(rel ++ "/")`
with mode `0o755` followed by its contents; for a file, a stored entry at
`rel` with mode `0o755` and the file's bytes. -/
def zipVisit : String → FsTree → List ZipEntry
  | rel, FsTree.file _ content => [ZipEntry.fileEntry rel 0o755 content]
  | rel, FsTree.dir _ entries =>
    ZipEntry.dirEntry (rel ++ "/") 0o755 :: zipEntriesOf rel entries

/-- The entries for the children of a directory at relative path `rel`,
in walk order. -/
def zipEntriesOf : String → List FsTree → List ZipEntry
  | _, [] => []
  | rel, t :: ts => zipVisit (relJoin rel t.name) t ++ zipEntriesOf rel ts

end

/-- `fn zip_folder(src_dir, dst_dir, zip_name)` from `src/main.rs`: the
entry list of the archive built from the source tree, starting the walk at
the root, whose relative path is empty. -/
def zipFolder (t : FsTree) : List ZipEntry := zipVisit "" t

/-- C10: for every source directory, the walk's first visited entry is the
root itself, whose relative path is empty; the archive therefore always
holds — as its first entry — a directory entry named exactly `"/"` with
permission bits `0o755`, in addition to the entries of the root's
descendants. -/
theorem zip_root_dir_entry (n : String) (ts : List FsTree) :
    (zipFolder (FsTree.dir n ts)).head? = some (ZipEntry.dirEntry "/" 0o755)
  ∧ ZipEntry.dirEntry "/" 0o755 ∈ zipFolder (FsTree.dir n ts)
  ∧ zipFolder (FsTree.dir n ts) = ZipEntry.dirEntry "/" 0o755 :: zipEntriesOf "" ts := by
  have hs : ("" : String) ++ "/" = "/" := rfl
  have h : zipFolder (FsTree.dir n ts)
      = ZipEntry.dirEntry "/" 0o755 :: zipEntriesOf "" ts := by
    show zipVisit "" (FsTree.dir n ts) = _
    rw [zipVisit, hs]
  exact ⟨by rw [h]; rfl, by rw [h]; exact List.mem_cons_self _ _, h⟩

end MMM
